import Mathlib

/-!
Verification of the cayatex parser core (`src/parser.rs`).

The Rust parser is shallowly embedded: the byte buffer `Vec<u8>` becomes
`List Nat`, the mutable cursor becomes explicit state passing of a `Parser`
value, and each `while` loop becomes a fuel-indexed recursive function whose
entry point passes `source.length + 1` fuel (always sufficient, as proved
below).  A Rust function that can panic returns a `RustOutcome` with an
explicit `panic` constructor.
-/

namespace Cayatex

/-- Models `u8::is_ascii_whitespace`: space, horizontal tab, newline,
form feed, carriage return. -/
def isAsciiWhitespace (c : Nat) : Bool :=
  c = 32 || c = 9 || c = 10 || c = 12 || c = 13

/-- Models `u8::is_ascii_alphabetic`. -/
def isAsciiAlphabetic (c : Nat) : Bool :=
  (65 ≤ c && c ≤ 90) || (97 ≤ c && c ≤ 122)

/-- Models `u8::is_ascii_alphanumeric`. -/
def isAsciiAlphanumeric (c : Nat) : Bool :=
  isAsciiAlphabetic c || (48 ≤ c && c ≤ 57)

/-- Models `char::from_digit(num, radix)`: `some` of the digit's character
code when `num < radix`, `none` otherwise.  (The parser only calls it with
radix 10.) -/
def charFromDigit (num radix : Nat) : Option Nat :=
  if num < radix then
    if num < 10 then some (48 + num) else some (87 + num)
  else none

/-- Models `(b as char).to_string()` for a byte `b`. -/
def byteCharString (c : Nat) : String := String.singleton (Char.ofNat c)

/-- Models `b.to_string()` for `b : u8`: its decimal representation. -/
def byteDecimalString (c : Nat) : String := Nat.repr c

/-- Models `Range<usize>` (the `Span` alias in `parser.rs`); the field
`stop` models the Rust field `end`, which is a Lean keyword. -/
structure Span where
  start : Nat
  stop : Nat

/-- Models `Loc<T>`: a value together with the byte range it came from. -/
structure Loc (α : Type) where
  range : Span
  inner : α

/-- Models `ParseError`. -/
inductive ParseError where
  | UnmatchedRightBracket : ParseError
  | EndOfFile (expected : String) : ParseError
  | UnexpectedChar (expected received : String) : ParseError

/-- Models `Expr`. -/
inductive Expr where
  | Inline (name : Span) (args : List Span) (body : List (Loc Expr)) : Expr
  | Block (name : Span) (args : List Span) (body : List (Loc Expr)) : Expr
  | Text (s : Span) : Expr

/-- Outcome of running a Rust function: a normal `Ok`, a normal `Err`, or a
panic (e.g. `Option::unwrap` on `None`). -/
inductive RustOutcome (ε α : Type) where
  | ok : α → RustOutcome ε α
  | err : ε → RustOutcome ε α
  | panic : String → RustOutcome ε α

/-- True exactly on the `ok` constructor. -/
def RustOutcome.isOk : RustOutcome ε α → Bool
  | .ok _ => true
  | _ => false

/-- Models `struct Parser { source: Vec<u8>, idx: usize }`. -/
structure Parser where
  source : List Nat
  idx : Nat

/-- Models `Parser::new`. -/
def Parser.new (source : List Nat) : Parser := ⟨source, 0⟩

/-- Models `Parser::peek`. -/
def Parser.peek (p : Parser) : Option (Nat × Nat) :=
  (p.source.get? p.idx).map fun c => (p.idx, c)

/-- Models `Parser::bump`: returns the consumed byte with its offset and the
advanced parser state. -/
def Parser.bump (p : Parser) : Option ((Nat × Nat) × Parser) :=
  if h : p.idx < p.source.length then
    some ((p.idx, p.source.get ⟨p.idx, h⟩), ⟨p.source, p.idx + 1⟩)
  else
    none

/-- Models a `self.bump();` statement whose returned value is discarded. -/
def Parser.bumpDiscard (p : Parser) : Parser :=
  match p.bump with
  | some (_, p') => p'
  | none => p

/-- The `while let` loop of `Parser::take_whitespace`, with explicit fuel. -/
def Parser.take_whitespaceF : Nat → Parser → Parser
  | 0, p => p
  | fuel + 1, p =>
    match p.peek with
    | none => p
    | some (_, c) =>
      if isAsciiWhitespace c then Parser.take_whitespaceF fuel p.bumpDiscard else p

/-- Models `Parser::take_whitespace` (fuel `source.length + 1` always
suffices: each iteration consumes one byte). -/
def Parser.take_whitespace (p : Parser) : Parser :=
  Parser.take_whitespaceF (p.source.length + 1) p

/-- Models `Parser::expect_char`.  At end of input the Rust code builds the
`EndOfFile` error message with `char::from_digit(expected_char as u32, 10)
.unwrap()`, which panics whenever `expected_char ≥ 10`. -/
def Parser.expect_char (p : Parser) (expected_char : Nat) :
    RustOutcome (Loc ParseError) (Unit × Parser) :=
  match p.bump with
  | none =>
    match charFromDigit expected_char 10 with
    | none => .panic "called Option::unwrap on a None value"
    | some d =>
      .err ⟨⟨p.source.length - 1, p.source.length - 1⟩,
        .EndOfFile (byteCharString d)⟩
  | some ((idx, c), p') =>
    if c = expected_char then .ok ((), p')
    else
      .err ⟨⟨idx, idx⟩,
        .UnexpectedChar (byteCharString expected_char) (byteDecimalString c)⟩

/-- The `while let` scanning loop of `Parser::parse_name`, with explicit
fuel; on exhausted input it returns the span `start_idx..(len - 1)` exactly
as the Rust code does. -/
def Parser.name_loopF (start_idx : Nat) : Nat → Parser → Span × Parser
  | 0, p => (⟨start_idx, p.source.length - 1⟩, p)
  | fuel + 1, p =>
    match p.peek with
    | none => (⟨start_idx, p.source.length - 1⟩, p)
    | some (idx, c) =>
      if isAsciiAlphanumeric c then Parser.name_loopF start_idx fuel p.bumpDiscard
      else (⟨start_idx, idx⟩, p)

/-- Models `Parser::parse_name`. -/
def Parser.parse_name (p : Parser) : RustOutcome (Loc ParseError) (Span × Parser) :=
  match p.bump with
  | none => .err ⟨⟨p.source.length, p.source.length⟩, .EndOfFile "name"⟩
  | some ((start_idx, c), p') =>
    if isAsciiAlphabetic c then
      .ok (Parser.name_loopF start_idx (p'.source.length + 1) p')
    else
      .err ⟨⟨start_idx, start_idx⟩,
        .UnexpectedChar "letter" (byteDecimalString c)⟩

/-- Models `Parser::parse_inline`. -/
def Parser.parse_inline (p : Parser) (start_idx : Nat) :
    RustOutcome (Loc ParseError) (Loc Expr × Parser) :=
  match (p.take_whitespace).parse_name with
  | .err e => .err e
  | .panic s => .panic s
  | .ok (name, p2) =>
    .ok (⟨⟨start_idx, name.stop⟩, .Inline name [] []⟩, p2.take_whitespace)

/-- Models `Parser::parse_block`. -/
def Parser.parse_block (p : Parser) (start_idx : Nat) :
    RustOutcome (Loc ParseError) (Loc Expr × Parser) :=
  match (p.take_whitespace).parse_name with
  | .err e => .err e
  | .panic s => .panic s
  | .ok (name, p2) =>
    match (p2.take_whitespace).expect_char 124 with
    | .err e => .err e
    | .panic s => .panic s
    | .ok (_, p4) =>
      .ok (⟨⟨start_idx, name.stop⟩, .Block name [] []⟩, p4)

/-- The `while let` loop of `Parser::parse_document`, with explicit fuel.
Byte codes: 91 `[`, 123 left brace, 93 `]`, 125 right brace. -/
def Parser.doc_loopF :
    Nat → Parser → List (Loc Expr) → Nat → RustOutcome (Loc ParseError) (List (Loc Expr))
  | 0, _, exprs, _ => .ok exprs
  | fuel + 1, p, exprs, start_idx =>
    match p.bump with
    | none => .ok exprs
    | some ((idx, c), p') =>
      if c = 91 then
        match p'.parse_inline idx with
        | .err e => .err e
        | .panic s => .panic s
        | .ok (inline_expr, p2) =>
          Parser.doc_loopF fuel p2
            (exprs ++ [⟨⟨start_idx, idx⟩, .Text ⟨start_idx, idx⟩⟩, inline_expr])
            (inline_expr.range.stop + 1)
      else if c = 123 then
        match p'.parse_block idx with
        | .err e => .err e
        | .panic s => .panic s
        | .ok (block_expr, p2) =>
          Parser.doc_loopF fuel p2
            (exprs ++ [⟨⟨start_idx, idx⟩, .Text ⟨start_idx, idx⟩⟩, block_expr])
            (block_expr.range.stop + 1)
      else if c = 93 ∨ c = 125 then
        .err ⟨⟨idx, idx⟩, .UnmatchedRightBracket⟩
      else
        Parser.doc_loopF fuel p' exprs start_idx

/-- Models `Parser::parse_document` (fuel `source.length + 1` always
suffices: each iteration consumes at least one byte). -/
def Parser.parse_document (p : Parser) : RustOutcome (Loc ParseError) (List (Loc Expr)) :=
  Parser.doc_loopF (p.source.length + 1) p [] 0

/-- True on `Text` nodes. -/
def isTextNode (e : Loc Expr) : Bool :=
  match e.inner with
  | .Text _ => true
  | _ => false

/-- True on `Inline` and `Block` nodes. -/
def isDirectiveNode (e : Loc Expr) : Bool :=
  match e.inner with
  | .Inline _ _ _ => true
  | .Block _ _ _ => true
  | .Text _ => false

/-- Fallback element for list indexing with `List.getD`. -/
def locDefault : Loc Expr := ⟨⟨0, 0⟩, .Text ⟨0, 0⟩⟩

/-- The bytes of `"[bold"`. -/
def boldInput : List Nat := [91, 98, 111, 108, 100]

/-- The bytes of `"[bold]"`. -/
def boldBracketInput : List Nat := [91, 98, 111, 108, 100, 93]

/-- The bytes of `"{box|"`. -/
def boxPipeInput : List Nat := [123, 98, 111, 120, 124]

/-- The bytes of `"{box"`. -/
def boxInput : List Nat := [123, 98, 111, 120]

/-- The bytes of `"[a[b"`. -/
def nestedOpenInput : List Nat := [91, 97, 91, 98]

/-! ### Basic cursor lemmas -/

/-- `List.getD` agrees with `List.get` at in-range indices. -/
theorem getD_eq_get {α : Type} (l : List α) (d : α) {n : Nat} (h : n < l.length) :
    l.getD n d = l.get ⟨n, h⟩ := by
  rw [List.getD_eq_getElem?_getD, List.getElem?_eq_getElem h]
  rfl

theorem Parser.peek_eq_none (p : Parser) (h : p.source.length ≤ p.idx) :
    p.peek = none := by
  unfold Parser.peek
  rw [List.get?_len_le h]
  rfl

theorem Parser.peek_eq_some (p : Parser) (h : p.idx < p.source.length) :
    p.peek = some (p.idx, p.source.get ⟨p.idx, h⟩) := by
  unfold Parser.peek
  rw [List.get?_eq_get h]
  rfl

theorem Parser.bump_eq_none (p : Parser) (h : p.source.length ≤ p.idx) :
    p.bump = none := by
  unfold Parser.bump
  rw [dif_neg (not_lt.mpr h)]

theorem Parser.bump_eq_some (p : Parser) (h : p.idx < p.source.length) :
    p.bump = some ((p.idx, p.source.get ⟨p.idx, h⟩), ⟨p.source, p.idx + 1⟩) := by
  unfold Parser.bump
  rw [dif_pos h]

/-- Inversion for a successful `bump`: the returned offset is the old cursor
position, the byte is the byte there, and the cursor advances by one. -/
theorem Parser.bump_inv {p : Parser} {i c : Nat} {p' : Parser}
    (h : p.bump = some ((i, c), p')) :
    i = p.idx ∧ p.idx < p.source.length ∧ p' = ⟨p.source, p.idx + 1⟩ ∧
      c = p.source.getD p.idx 0 := by
  by_cases hlt : p.idx < p.source.length
  · rw [Parser.bump_eq_some p hlt] at h
    simp only [Option.some.injEq, Prod.mk.injEq] at h
    obtain ⟨⟨hi, hc⟩, hp⟩ := h
    exact ⟨hi.symm, hlt, hp.symm, by rw [getD_eq_get p.source 0 hlt, hc]⟩
  · rw [Parser.bump_eq_none p (le_of_not_lt hlt)] at h
    exact Option.noConfusion h

theorem Parser.bumpDiscard_of_lt {p : Parser} (h : p.idx < p.source.length) :
    p.bumpDiscard = ⟨p.source, p.idx + 1⟩ := by
  unfold Parser.bumpDiscard
  rw [Parser.bump_eq_some p h]

theorem Parser.bumpDiscard_of_ge {p : Parser} (h : p.source.length ≤ p.idx) :
    p.bumpDiscard = p := by
  unfold Parser.bumpDiscard
  rw [Parser.bump_eq_none p h]

/-! ### Whitespace-loop lemmas -/

/-- Past the end of the buffer the whitespace loop is the identity. -/
theorem Parser.take_whitespaceF_at_end (f : Nat) (p : Parser)
    (h : p.source.length ≤ p.idx) : Parser.take_whitespaceF f p = p := by
  cases f with
  | zero => rfl
  | succ f => simp [Parser.take_whitespaceF, Parser.peek_eq_none p h]

/-- The whitespace loop never changes the source buffer. -/
theorem Parser.take_whitespaceF_source (f : Nat) (p : Parser) :
    (Parser.take_whitespaceF f p).source = p.source := by
  induction f generalizing p with
  | zero => rfl
  | succ f ih =>
    by_cases hlt : p.idx < p.source.length
    · simp only [Parser.take_whitespaceF, Parser.peek_eq_some p hlt]
      split
      · rw [ih, Parser.bumpDiscard_of_lt hlt]
      · rfl
    · rw [Parser.take_whitespaceF_at_end _ p (le_of_not_lt hlt)]

/-- The whitespace loop never moves the cursor backwards. -/
theorem Parser.take_whitespaceF_idx_le (f : Nat) (p : Parser) :
    p.idx ≤ (Parser.take_whitespaceF f p).idx := by
  induction f generalizing p with
  | zero => exact le_refl _
  | succ f ih =>
    by_cases hlt : p.idx < p.source.length
    · simp only [Parser.take_whitespaceF, Parser.peek_eq_some p hlt]
      split
      · have := ih ⟨p.source, p.idx + 1⟩
        rw [Parser.bumpDiscard_of_lt hlt]
        exact le_trans (Nat.le_succ _) this
      · exact le_refl _
    · rw [Parser.take_whitespaceF_at_end _ p (le_of_not_lt hlt)]

/-- The whitespace loop keeps the cursor inside the buffer. -/
theorem Parser.take_whitespaceF_idx_bound (f : Nat) (p : Parser)
    (h : p.idx ≤ p.source.length) :
    (Parser.take_whitespaceF f p).idx ≤ p.source.length := by
  induction f generalizing p with
  | zero => exact h
  | succ f ih =>
    by_cases hlt : p.idx < p.source.length
    · simp only [Parser.take_whitespaceF, Parser.peek_eq_some p hlt]
      split
      · rw [Parser.bumpDiscard_of_lt hlt]
        exact ih ⟨p.source, p.idx + 1⟩ hlt
      · exact h
    · rw [Parser.take_whitespaceF_at_end _ p (le_of_not_lt hlt)]
      exact h

/-- Any fuel of at least the remaining byte count gives the whitespace loop
the same result: the loop runs at most `length - idx` iterations. -/
theorem Parser.take_whitespaceF_congr_aux :
    ∀ (n f g : Nat) (p : Parser), p.source.length - p.idx ≤ n →
      p.source.length - p.idx ≤ f → p.source.length - p.idx ≤ g →
      Parser.take_whitespaceF f p = Parser.take_whitespaceF g p := by
  intro n
  induction n with
  | zero =>
    intro f g p hn hf hg
    have h : p.source.length ≤ p.idx := by omega
    rw [Parser.take_whitespaceF_at_end f p h, Parser.take_whitespaceF_at_end g p h]
  | succ n ih =>
    intro f g p hn hf hg
    by_cases hlt : p.idx < p.source.length
    · obtain ⟨f', rfl⟩ : ∃ f', f = f' + 1 := ⟨f - 1, by omega⟩
      obtain ⟨g', rfl⟩ : ∃ g', g = g' + 1 := ⟨g - 1, by omega⟩
      simp only [Parser.take_whitespaceF, Parser.peek_eq_some p hlt]
      split
      · rw [Parser.bumpDiscard_of_lt hlt]
        exact ih f' g' ⟨p.source, p.idx + 1⟩ (by simp; omega) (by simp; omega)
          (by simp; omega)
      · rfl
    · have h := le_of_not_lt hlt
      rw [Parser.take_whitespaceF_at_end f p h, Parser.take_whitespaceF_at_end g p h]

/-! ### Name-loop lemmas -/

/-- Past the end of the buffer the name loop returns the end-of-input span
`start..(length - 1)`. -/
theorem Parser.name_loopF_at_end (start f : Nat) (p : Parser)
    (h : p.source.length ≤ p.idx) :
    Parser.name_loopF start f p = (⟨start, p.source.length - 1⟩, p) := by
  cases f with
  | zero => rfl
  | succ f => simp [Parser.name_loopF, Parser.peek_eq_none p h]

/-- The name loop never changes the source buffer. -/
theorem Parser.name_loopF_source (start f : Nat) (p : Parser) :
    (Parser.name_loopF start f p).2.source = p.source := by
  induction f generalizing p with
  | zero => rfl
  | succ f ih =>
    by_cases hlt : p.idx < p.source.length
    · simp only [Parser.name_loopF, Parser.peek_eq_some p hlt]
      split
      · rw [ih, Parser.bumpDiscard_of_lt hlt]
      · rfl
    · rw [Parser.name_loopF_at_end start _ p (le_of_not_lt hlt)]

/-- The name loop never moves the cursor backwards. -/
theorem Parser.name_loopF_idx_le (start f : Nat) (p : Parser) :
    p.idx ≤ (Parser.name_loopF start f p).2.idx := by
  induction f generalizing p with
  | zero => exact le_refl _
  | succ f ih =>
    by_cases hlt : p.idx < p.source.length
    · simp only [Parser.name_loopF, Parser.peek_eq_some p hlt]
      split
      · have := ih ⟨p.source, p.idx + 1⟩
        rw [Parser.bumpDiscard_of_lt hlt]
        exact le_trans (Nat.le_succ _) this
      · exact le_refl _
    · rw [Parser.name_loopF_at_end start _ p (le_of_not_lt hlt)]

/-- The name loop keeps the cursor inside the buffer. -/
theorem Parser.name_loopF_idx_bound (start f : Nat) (p : Parser)
    (h : p.idx ≤ p.source.length) :
    (Parser.name_loopF start f p).2.idx ≤ p.source.length := by
  induction f generalizing p with
  | zero => exact h
  | succ f ih =>
    by_cases hlt : p.idx < p.source.length
    · simp only [Parser.name_loopF, Parser.peek_eq_some p hlt]
      split
      · rw [Parser.bumpDiscard_of_lt hlt]
        exact ih ⟨p.source, p.idx + 1⟩ hlt
      · exact h
    · rw [Parser.name_loopF_at_end start _ p (le_of_not_lt hlt)]
      exact h

/-- Any fuel of at least the remaining byte count gives the name loop the
same result: the loop runs at most `length - idx` iterations. -/
theorem Parser.name_loopF_congr_aux :
    ∀ (n start f g : Nat) (p : Parser), p.source.length - p.idx ≤ n →
      p.source.length - p.idx ≤ f → p.source.length - p.idx ≤ g →
      Parser.name_loopF start f p = Parser.name_loopF start g p := by
  intro n
  induction n with
  | zero =>
    intro start f g p hn hf hg
    have h : p.source.length ≤ p.idx := by omega
    rw [Parser.name_loopF_at_end start f p h, Parser.name_loopF_at_end start g p h]
  | succ n ih =>
    intro start f g p hn hf hg
    by_cases hlt : p.idx < p.source.length
    · obtain ⟨f', rfl⟩ : ∃ f', f = f' + 1 := ⟨f - 1, by omega⟩
      obtain ⟨g', rfl⟩ : ∃ g', g = g' + 1 := ⟨g - 1, by omega⟩
      simp only [Parser.name_loopF, Parser.peek_eq_some p hlt]
      split
      · rw [Parser.bumpDiscard_of_lt hlt]
        exact ih start f' g' ⟨p.source, p.idx + 1⟩ (by simp; omega) (by simp; omega)
          (by simp; omega)
      · rfl
    · have h := le_of_not_lt hlt
      rw [Parser.name_loopF_at_end start f p h, Parser.name_loopF_at_end start g p h]

/-- Characterisation of the span the name loop returns, given sufficient
fuel: the span starts at `start`; its end is either the offset of the first
non-alphanumeric byte at or after the cursor (all bytes strictly before it
and at or after the cursor being alphanumeric), or `length - 1` when every
byte from the cursor to the end of the input is alphanumeric. -/
theorem Parser.name_loopF_span :
    ∀ (f start : Nat) (p : Parser), p.source.length - p.idx ≤ f →
      (Parser.name_loopF start f p).1.start = start ∧
      (((Parser.name_loopF start f p).1.stop < p.source.length ∧
          p.idx ≤ (Parser.name_loopF start f p).1.stop ∧
          isAsciiAlphanumeric
            (p.source.getD (Parser.name_loopF start f p).1.stop 0) = false ∧
          ∀ j, p.idx ≤ j → j < (Parser.name_loopF start f p).1.stop →
            isAsciiAlphanumeric (p.source.getD j 0) = true) ∨
        ((Parser.name_loopF start f p).1.stop = p.source.length - 1 ∧
          ∀ j, p.idx ≤ j → j < p.source.length →
            isAsciiAlphanumeric (p.source.getD j 0) = true)) := by
  intro f
  induction f with
  | zero =>
    intro start p hf
    have h : p.source.length ≤ p.idx := by omega
    refine ⟨rfl, Or.inr ⟨rfl, ?_⟩⟩
    intro j hj hj'
    omega
  | succ f ih =>
    intro start p hf
    by_cases hlt : p.idx < p.source.length
    · have hg : p.source.getD p.idx 0 = p.source.get ⟨p.idx, hlt⟩ :=
        getD_eq_get p.source 0 hlt
      simp only [Parser.name_loopF, Parser.peek_eq_some p hlt]
      by_cases hal : isAsciiAlphanumeric (p.source.get ⟨p.idx, hlt⟩) = true
      · rw [if_pos hal, Parser.bumpDiscard_of_lt hlt]
        obtain ⟨h1, h2⟩ := ih start ⟨p.source, p.idx + 1⟩ (by simp; omega)
        dsimp only at h2
        refine ⟨h1, ?_⟩
        rcases h2 with ⟨hb1, hb2, hb3, hb4⟩ | ⟨hb1, hb2⟩
        · refine Or.inl ⟨hb1, by omega, hb3, ?_⟩
          intro j hj hj'
          rcases Nat.eq_or_lt_of_le hj with rfl | hj2
          · rw [hg]; exact hal
          · exact hb4 j hj2 hj'
        · refine Or.inr ⟨hb1, ?_⟩
          intro j hj hj'
          rcases Nat.eq_or_lt_of_le hj with rfl | hj2
          · rw [hg]; exact hal
          · exact hb2 j hj2 hj'
      · rw [if_neg hal]
        dsimp only
        refine ⟨rfl, Or.inl ⟨hlt, le_refl _, ?_, ?_⟩⟩
        · rw [hg]
          exact Bool.not_eq_true _ ▸ (by simpa using hal)
        · intro j hj hj'
          omega
    · rw [Parser.name_loopF_at_end start _ p (le_of_not_lt hlt)]
      refine ⟨rfl, Or.inr ⟨rfl, ?_⟩⟩
      intro j hj hj'
      omega

/-! ### Rule-level inversion and state lemmas -/

/-- Inversion for a successful `parse_name`: the first byte is in range and
alphabetic, and the result is the name loop run from the next position. -/
theorem Parser.parse_name_ok {p : Parser} {s : Span} {p' : Parser}
    (h : p.parse_name = .ok (s, p')) :
    p.idx < p.source.length ∧
      isAsciiAlphabetic (p.source.getD p.idx 0) = true ∧
      (s, p') = Parser.name_loopF p.idx (p.source.length + 1) ⟨p.source, p.idx + 1⟩ := by
  unfold Parser.parse_name at h
  by_cases hlt : p.idx < p.source.length
  · rw [Parser.bump_eq_some p hlt] at h
    dsimp only at h
    by_cases hal : isAsciiAlphabetic (p.source.get ⟨p.idx, hlt⟩) = true
    · rw [if_pos hal] at h
      injection h with h
      refine ⟨hlt, ?_, h.symm⟩
      rw [getD_eq_get p.source 0 hlt]
      exact hal
    · rw [if_neg hal] at h
      exact RustOutcome.noConfusion h
  · rw [Parser.bump_eq_none p (le_of_not_lt hlt)] at h
    exact RustOutcome.noConfusion h

/-- A successful `parse_name` never moves the cursor backwards, moves it at
least one byte forward, keeps it in bounds, and leaves the buffer alone. -/
theorem Parser.parse_name_state {p : Parser} {s : Span} {p' : Parser}
    (h : p.parse_name = .ok (s, p')) :
    p'.source = p.source ∧ p.idx < p'.idx ∧
      (p.idx ≤ p.source.length → p'.idx ≤ p.source.length) := by
  obtain ⟨hlt, _, heq⟩ := Parser.parse_name_ok h
  have hp' : p' = (Parser.name_loopF p.idx (p.source.length + 1)
      ⟨p.source, p.idx + 1⟩).2 := congrArg Prod.snd heq
  refine ⟨?_, ?_, ?_⟩
  · rw [hp']
    exact Parser.name_loopF_source _ _ _
  · have h1 := Parser.name_loopF_idx_le p.idx (p.source.length + 1)
      ⟨p.source, p.idx + 1⟩
    dsimp only at h1
    rw [hp']
    omega
  · intro _
    have h2 := Parser.name_loopF_idx_bound p.idx (p.source.length + 1)
      ⟨p.source, p.idx + 1⟩ (by dsimp only; omega)
    dsimp only at h2
    rw [hp']
    exact h2

/-- Inversion for a successful `expect_char`: a byte was available and the
cursor advanced past it. -/
theorem Parser.expect_char_ok {p : Parser} {c0 : Nat} {u : Unit} {p' : Parser}
    (h : p.expect_char c0 = .ok (u, p')) :
    p.idx < p.source.length ∧ p' = ⟨p.source, p.idx + 1⟩ := by
  unfold Parser.expect_char at h
  by_cases hlt : p.idx < p.source.length
  · rw [Parser.bump_eq_some p hlt] at h
    dsimp only at h
    by_cases hc : p.source.get ⟨p.idx, hlt⟩ = c0
    · rw [if_pos hc] at h
      injection h with h
      injection h with h1 h2
      exact ⟨hlt, h2.symm⟩
    · rw [if_neg hc] at h
      exact RustOutcome.noConfusion h
  · rw [Parser.bump_eq_none p (le_of_not_lt hlt)] at h
    dsimp only at h
    cases hcd : charFromDigit c0 10 with
    | none => rw [hcd] at h; exact RustOutcome.noConfusion h
    | some d => rw [hcd] at h; exact RustOutcome.noConfusion h

theorem Parser.take_whitespace_source (p : Parser) :
    (p.take_whitespace).source = p.source :=
  Parser.take_whitespaceF_source _ _

theorem Parser.take_whitespace_idx_le (p : Parser) :
    p.idx ≤ (p.take_whitespace).idx :=
  Parser.take_whitespaceF_idx_le _ _

theorem Parser.take_whitespace_idx_bound (p : Parser) (h : p.idx ≤ p.source.length) :
    (p.take_whitespace).idx ≤ p.source.length :=
  Parser.take_whitespaceF_idx_bound _ _ h

/-- Inversion for a successful `parse_inline`: it is whitespace, a name,
whitespace, and the node's range is `start_idx..name.stop`. -/
theorem Parser.parse_inline_ok {p : Parser} {si : Nat} {e : Loc Expr} {p2 : Parser}
    (h : p.parse_inline si = .ok (e, p2)) :
    ∃ name pm, (p.take_whitespace).parse_name = .ok (name, pm) ∧
      e = ⟨⟨si, name.stop⟩, .Inline name [] []⟩ ∧ p2 = pm.take_whitespace := by
  unfold Parser.parse_inline at h
  cases hn : (p.take_whitespace).parse_name with
  | ok v =>
    obtain ⟨name, pm⟩ := v
    rw [hn] at h
    dsimp only at h
    injection h with h
    injection h with h1 h2
    exact ⟨name, pm, rfl, h1.symm, h2.symm⟩
  | err e0 =>
    rw [hn] at h
    exact RustOutcome.noConfusion h
  | panic s0 =>
    rw [hn] at h
    exact RustOutcome.noConfusion h

/-- Inversion for a successful `parse_block`: whitespace, a name,
whitespace, the pipe byte, and the node's range is `start_idx..name.stop`,
excluding the pipe. -/
theorem Parser.parse_block_ok {p : Parser} {si : Nat} {e : Loc Expr} {p4 : Parser}
    (h : p.parse_block si = .ok (e, p4)) :
    ∃ name pm u p4', (p.take_whitespace).parse_name = .ok (name, pm) ∧
      (pm.take_whitespace).expect_char 124 = .ok (u, p4') ∧
      e = ⟨⟨si, name.stop⟩, .Block name [] []⟩ ∧ p4 = p4' := by
  unfold Parser.parse_block at h
  cases hn : (p.take_whitespace).parse_name with
  | ok v =>
    obtain ⟨name, pm⟩ := v
    rw [hn] at h
    dsimp only at h
    cases he : (pm.take_whitespace).expect_char 124 with
    | ok w =>
      obtain ⟨u, p4'⟩ := w
      rw [he] at h
      dsimp only at h
      injection h with h
      injection h with h1 h2
      exact ⟨name, pm, u, p4', rfl, he, h1.symm, h2.symm⟩
    | err e0 =>
      rw [he] at h
      exact RustOutcome.noConfusion h
    | panic s0 =>
      rw [he] at h
      exact RustOutcome.noConfusion h
  | err e0 =>
    rw [hn] at h
    exact RustOutcome.noConfusion h
  | panic s0 =>
    rw [hn] at h
    exact RustOutcome.noConfusion h

/-- A successful `parse_inline` advances the cursor, keeps it inside the
buffer, and leaves the buffer alone. -/
theorem Parser.parse_inline_state {p : Parser} {si : Nat} {e : Loc Expr} {p2 : Parser}
    (h : p.parse_inline si = .ok (e, p2)) :
    p2.source = p.source ∧ p.idx < p2.idx ∧
      (p.idx ≤ p.source.length → p2.idx ≤ p.source.length) := by
  obtain ⟨name, pm, hn, _, hp2⟩ := Parser.parse_inline_ok h
  have tw1s := Parser.take_whitespace_source p
  have tw1i := Parser.take_whitespace_idx_le p
  obtain ⟨hs1, hi1, hb1⟩ := Parser.parse_name_state hn
  have tw2s := Parser.take_whitespace_source pm
  have tw2i := Parser.take_whitespace_idx_le pm
  have hsrc : p2.source = p.source := by
    rw [hp2, tw2s, hs1, tw1s]
  refine ⟨hsrc, ?_, ?_⟩
  · have hmono : pm.idx ≤ p2.idx := by
      rw [hp2]
      exact tw2i
    omega
  · intro hle
    have hlen1 : (p.take_whitespace).source.length = p.source.length := by
      rw [tw1s]
    have htw1b := Parser.take_whitespace_idx_bound p hle
    have hpmb : pm.idx ≤ p.source.length := by
      have := hb1 (by omega)
      omega
    have hlenm : pm.source.length = p.source.length := by
      rw [hs1]
      exact hlen1
    have htw2b := Parser.take_whitespace_idx_bound pm (by omega)
    rw [hp2]
    omega

/-- A successful `parse_block` advances the cursor, keeps it inside the
buffer, and leaves the buffer alone. -/
theorem Parser.parse_block_state {p : Parser} {si : Nat} {e : Loc Expr} {p4 : Parser}
    (h : p.parse_block si = .ok (e, p4)) :
    p4.source = p.source ∧ p.idx < p4.idx ∧
      (p.idx ≤ p.source.length → p4.idx ≤ p.source.length) := by
  obtain ⟨name, pm, u, p4', hn, he, _, hp4⟩ := Parser.parse_block_ok h
  have tw1s := Parser.take_whitespace_source p
  have tw1i := Parser.take_whitespace_idx_le p
  obtain ⟨hs1, hi1, hb1⟩ := Parser.parse_name_state hn
  have tw2s := Parser.take_whitespace_source pm
  have tw2i := Parser.take_whitespace_idx_le pm
  obtain ⟨hel, hep⟩ := Parser.expect_char_ok he
  have hsrc : p4.source = p.source := by
    rw [hp4, hep]
    dsimp only
    rw [tw2s, hs1, tw1s]
  have hidx4 : p4.idx = (pm.take_whitespace).idx + 1 := by
    rw [hp4, hep]
  refine ⟨hsrc, ?_, ?_⟩
  · omega
  · intro hle
    have hlen2 : (pm.take_whitespace).source.length = p.source.length := by
      rw [tw2s, hs1, tw1s]
    omega

/-! ### Document-loop lemmas -/

/-- Past the end of the buffer the document loop returns the accumulated
nodes unchanged. -/
theorem Parser.doc_loopF_at_end (f : Nat) (p : Parser) (exprs : List (Loc Expr))
    (s : Nat) (h : p.source.length ≤ p.idx) :
    Parser.doc_loopF f p exprs s = .ok exprs := by
  cases f with
  | zero => rfl
  | succ f => simp [Parser.doc_loopF, Parser.bump_eq_none p h]

/-- On a buffer containing none of the four structural bytes the document
loop consumes everything and returns the accumulator unchanged. -/
theorem Parser.doc_loopF_clean :
    ∀ (f : Nat) (p : Parser) (exprs : List (Loc Expr)) (s : Nat),
      (∀ b ∈ p.source, b ≠ 91 ∧ b ≠ 123 ∧ b ≠ 93 ∧ b ≠ 125) →
      Parser.doc_loopF f p exprs s = .ok exprs := by
  intro f
  induction f with
  | zero =>
    intro p exprs s hc
    rfl
  | succ f ih =>
    intro p exprs s hc
    by_cases hlt : p.idx < p.source.length
    · have hb := hc _ (List.get_mem p.source p.idx hlt)
      simp only [Parser.doc_loopF]
      rw [Parser.bump_eq_some p hlt]
      dsimp only
      rw [if_neg hb.1, if_neg hb.2.1, if_neg (not_or.mpr ⟨hb.2.2.1, hb.2.2.2⟩)]
      exact ih ⟨p.source, p.idx + 1⟩ exprs s hc
    · exact Parser.doc_loopF_at_end _ p exprs s (le_of_not_lt hlt)

/-- Everything the document loop appends comes in pairs: a text node
followed by a directive node. -/
inductive PairShape : List (Loc Expr) → Prop where
  | nil : PairShape []
  | pair (a b : Loc Expr) (t : List (Loc Expr)) :
      isTextNode a = true → isDirectiveNode b = true → PairShape t →
      PairShape (a :: b :: t)

/-- A successful document loop run extends the accumulator with a list of
text-node/directive-node pairs. -/
theorem Parser.doc_loopF_shape :
    ∀ (f : Nat) (p : Parser) (exprs : List (Loc Expr)) (s : Nat)
      (l : List (Loc Expr)),
      Parser.doc_loopF f p exprs s = .ok l → ∃ t, l = exprs ++ t ∧ PairShape t := by
  intro f
  induction f with
  | zero =>
    intro p exprs s l h
    have h' : (RustOutcome.ok exprs :
        RustOutcome (Loc ParseError) (List (Loc Expr))) = RustOutcome.ok l := h
    injection h' with h'
    exact ⟨[], by rw [← h', List.append_nil], PairShape.nil⟩
  | succ f ih =>
    intro p exprs s l h
    by_cases hlt : p.idx < p.source.length
    · simp only [Parser.doc_loopF] at h
      rw [Parser.bump_eq_some p hlt] at h
      dsimp only at h
      by_cases h91 : p.source.get ⟨p.idx, hlt⟩ = 91
      · rw [if_pos h91] at h
        cases hpi : Parser.parse_inline ⟨p.source, p.idx + 1⟩ p.idx with
        | ok v =>
          obtain ⟨ie, p2⟩ := v
          rw [hpi] at h
          dsimp only at h
          obtain ⟨t', ht', hsh⟩ := ih p2 _ _ l h
          obtain ⟨nm, pmm, _, hie, _⟩ := Parser.parse_inline_ok hpi
          refine ⟨(⟨⟨s, p.idx⟩, .Text ⟨s, p.idx⟩⟩ : Loc Expr) :: ie :: t', ?_, ?_⟩
          · rw [ht']
            simp
          · exact PairShape.pair _ _ _ rfl (by rw [hie]; rfl) hsh
        | err e0 =>
          rw [hpi] at h
          exact RustOutcome.noConfusion h
        | panic s0 =>
          rw [hpi] at h
          exact RustOutcome.noConfusion h
      · rw [if_neg h91] at h
        by_cases h123 : p.source.get ⟨p.idx, hlt⟩ = 123
        · rw [if_pos h123] at h
          cases hpb : Parser.parse_block ⟨p.source, p.idx + 1⟩ p.idx with
          | ok v =>
            obtain ⟨be, p2⟩ := v
            rw [hpb] at h
            dsimp only at h
            obtain ⟨t', ht', hsh⟩ := ih p2 _ _ l h
            obtain ⟨nm, pmm, u, p4', _, _, hbe, _⟩ := Parser.parse_block_ok hpb
            refine ⟨(⟨⟨s, p.idx⟩, .Text ⟨s, p.idx⟩⟩ : Loc Expr) :: be :: t', ?_, ?_⟩
            · rw [ht']
              simp
            · exact PairShape.pair _ _ _ rfl (by rw [hbe]; rfl) hsh
          | err e0 =>
            rw [hpb] at h
            exact RustOutcome.noConfusion h
          | panic s0 =>
            rw [hpb] at h
            exact RustOutcome.noConfusion h
        · rw [if_neg h123] at h
          by_cases hrb : p.source.get ⟨p.idx, hlt⟩ = 93 ∨ p.source.get ⟨p.idx, hlt⟩ = 125
          · rw [if_pos hrb] at h
            exact RustOutcome.noConfusion h
          · rw [if_neg hrb] at h
            exact ih ⟨p.source, p.idx + 1⟩ exprs s l h
    · rw [Parser.doc_loopF_at_end _ p exprs s (le_of_not_lt hlt)] at h
      injection h with h
      exact ⟨[], by rw [← h, List.append_nil], PairShape.nil⟩

/-- Any fuel of at least the remaining byte count gives the document loop
the same result: the loop runs at most `length - idx` iterations. -/
theorem Parser.doc_loopF_congr_aux :
    ∀ (n f g : Nat) (p : Parser) (exprs : List (Loc Expr)) (s : Nat),
      p.source.length - p.idx ≤ n → p.source.length - p.idx ≤ f →
      p.source.length - p.idx ≤ g →
      Parser.doc_loopF f p exprs s = Parser.doc_loopF g p exprs s := by
  intro n
  induction n with
  | zero =>
    intro f g p exprs s hn hf hg
    have h : p.source.length ≤ p.idx := by omega
    rw [Parser.doc_loopF_at_end f p exprs s h, Parser.doc_loopF_at_end g p exprs s h]
  | succ n ih =>
    intro f g p exprs s hn hf hg
    by_cases hlt : p.idx < p.source.length
    · obtain ⟨f', rfl⟩ : ∃ f', f = f' + 1 := ⟨f - 1, by omega⟩
      obtain ⟨g', rfl⟩ : ∃ g', g = g' + 1 := ⟨g - 1, by omega⟩
      simp only [Parser.doc_loopF]
      rw [Parser.bump_eq_some p hlt]
      dsimp only
      by_cases h91 : p.source.get ⟨p.idx, hlt⟩ = 91
      · rw [if_pos h91, if_pos h91]
        cases hpi : Parser.parse_inline ⟨p.source, p.idx + 1⟩ p.idx with
        | ok v =>
          obtain ⟨ie, p2⟩ := v
          dsimp only
          obtain ⟨hs2, hi2, hb2⟩ := Parser.parse_inline_state hpi
          dsimp only at hs2 hi2 hb2
          have hs2' : p2.source.length = p.source.length := by rw [hs2]
          have hb2' := hb2 (by omega)
          exact ih f' g' p2 _ _ (by omega) (by omega) (by omega)
        | err e0 => rfl
        | panic s0 => rfl
      · rw [if_neg h91, if_neg h91]
        by_cases h123 : p.source.get ⟨p.idx, hlt⟩ = 123
        · rw [if_pos h123, if_pos h123]
          cases hpb : Parser.parse_block ⟨p.source, p.idx + 1⟩ p.idx with
          | ok v =>
            obtain ⟨be, p2⟩ := v
            dsimp only
            obtain ⟨hs2, hi2, hb2⟩ := Parser.parse_block_state hpb
            dsimp only at hs2 hi2 hb2
            have hs2' : p2.source.length = p.source.length := by rw [hs2]
            have hb2' := hb2 (by omega)
            exact ih f' g' p2 _ _ (by omega) (by omega) (by omega)
          | err e0 => rfl
          | panic s0 => rfl
        · rw [if_neg h123, if_neg h123]
          by_cases hrb : p.source.get ⟨p.idx, hlt⟩ = 93 ∨ p.source.get ⟨p.idx, hlt⟩ = 125
          · rw [if_pos hrb, if_pos hrb]
          · rw [if_neg hrb, if_neg hrb]
            exact ih f' g' ⟨p.source, p.idx + 1⟩ exprs s (by dsimp only; omega)
              (by dsimp only; omega) (by dsimp only; omega)
    · have h := le_of_not_lt hlt
      rw [Parser.doc_loopF_at_end f p exprs s h, Parser.doc_loopF_at_end g p exprs s h]

/-- In a pair-shaped list every directive node sits at a positive index and
has a text node immediately before it. -/
theorem PairShape.directive_preceded {t : List (Loc Expr)} (hs : PairShape t) :
    ∀ i, i < t.length → isDirectiveNode (t.getD i locDefault) = true →
      0 < i ∧ isTextNode (t.getD (i - 1) locDefault) = true := by
  induction hs with
  | nil =>
    intro i hi hd
    simp at hi
  | pair a b t ha hb ht ih =>
    intro i hi hd
    match i with
    | 0 =>
      rw [List.getD_cons_zero] at hd
      obtain ⟨r, ei⟩ := a
      cases ei <;> simp_all [isTextNode, isDirectiveNode]
    | 1 =>
      refine ⟨Nat.zero_lt_one, ?_⟩
      show isTextNode ((a :: b :: t).getD 0 locDefault) = true
      rw [List.getD_cons_zero]
      exact ha
    | (n + 2) =>
      rw [List.getD_cons_succ, List.getD_cons_succ] at hd
      have hlen : n < t.length := by
        simp only [List.length_cons] at hi
        omega
      obtain ⟨hpos, htext⟩ := ih n hlen hd
      obtain ⟨m, rfl⟩ : ∃ m, n = m + 1 := ⟨n - 1, by omega⟩
      refine ⟨by omega, ?_⟩
      show isTextNode ((a :: b :: t).getD (m + 2) locDefault) = true
      rw [List.getD_cons_succ, List.getD_cons_succ]
      exact htext

/-- A successful parse of an input whose first byte opens a directive
starts with the zero-length text node `0..0`. -/
theorem Parser.parse_document_leading_text {src : List Nat} {l : List (Loc Expr)}
    (hlen : 0 < src.length) (hc : src.getD 0 0 = 91 ∨ src.getD 0 0 = 123)
    (h : (Parser.new src).parse_document = .ok l) :
    ∃ t, l = (⟨⟨0, 0⟩, .Text ⟨0, 0⟩⟩ : Loc Expr) :: t := by
  have h' : Parser.doc_loopF (src.length + 1) (Parser.new src) [] 0 = .ok l := h
  simp only [Parser.doc_loopF] at h'
  rw [Parser.bump_eq_some (Parser.new src) hlen] at h'
  dsimp only [Parser.new] at h'
  have hg : src.getD 0 0 = src.get ⟨0, hlen⟩ := getD_eq_get src 0 hlen
  rcases hc with h91 | h123
  · have hget : src.get ⟨0, hlen⟩ = 91 := by rw [← hg]; exact h91
    rw [if_pos hget] at h'
    split at h'
    · exact RustOutcome.noConfusion h'
    · exact RustOutcome.noConfusion h'
    · rename_i ie p2 heq
      obtain ⟨t', ht', _⟩ := Parser.doc_loopF_shape _ _ _ _ _ h'
      exact ⟨ie :: t', by rw [ht']; simp⟩
  · have hget : src.get ⟨0, hlen⟩ = 123 := by rw [← hg]; exact h123
    have hne : ¬(src.get ⟨0, hlen⟩ = 91) := by omega
    rw [if_neg hne, if_pos hget] at h'
    split at h'
    · exact RustOutcome.noConfusion h'
    · exact RustOutcome.noConfusion h'
    · rename_i be p2 heq
      obtain ⟨t', ht', _⟩ := Parser.doc_loopF_shape _ _ _ _ _ h'
      exact ⟨be :: t', by rw [ht']; simp⟩

/-! ### Claim theorems -/

/-- C1 counterexample: parsing the five bytes of the input left-bracket
bold returns an `ok`, not a located error, refuting the claimed end-of-file
failure. -/
theorem c1_counterexample :
    RustOutcome.isOk ((Parser.new boldInput).parse_document) = true := rfl

/-- C1 (amended): parsing the input left-bracket bold succeeds, yielding
the zero-length text node 0..0 followed by an `Inline` node with located
range 0..4 and name span 1..4 (the name loop hits end of input and returns
span end `length - 1`); no error is produced. -/
theorem c1_bold_parses_successfully :
    (Parser.new boldInput).parse_document =
      .ok [⟨⟨0, 0⟩, .Text ⟨0, 0⟩⟩, ⟨⟨0, 4⟩, .Inline ⟨1, 4⟩ [] []⟩] := rfl

/-- C2 fails on the code: parsing the input left-bracket a left-bracket b
succeeds and its third node is a `Text` node with range 3..2, a
negative-length range (the document loop sets the next text start to
`range.end + 1` although the byte that terminated the previous name was
not consumed). -/
theorem c2_negative_length_text_range :
    (Parser.new nestedOpenInput).parse_document =
      .ok [⟨⟨0, 0⟩, .Text ⟨0, 0⟩⟩, ⟨⟨0, 2⟩, .Inline ⟨1, 2⟩ [] []⟩,
        ⟨⟨3, 2⟩, .Text ⟨3, 2⟩⟩, ⟨⟨2, 3⟩, .Inline ⟨3, 3⟩ [] []⟩] ∧
      ¬((3 : Nat) ≤ 2) :=
  ⟨rfl, by omega⟩

/-- C3 fails on the code: parsing the input left-brace box does not return
an `EndOfFile` error expecting the pipe; building that error message calls
`char::from_digit(124, 10)`, which is `None`, so the `unwrap` panics. -/
theorem c3_expect_pipe_panics :
    (Parser.new boxInput).parse_document =
        .panic "called Option::unwrap on a None value" ∧
      charFromDigit 124 10 = none :=
  ⟨rfl, rfl⟩

/-- C4 counterexample: on the one-byte buffer holding the letter a the name
rule succeeds with the empty span 0..0 (start = end), refuting the claim
that a successful name span is always non-empty. -/
theorem c4_counterexample :
    Parser.parse_name ⟨[97], 0⟩ = .ok (⟨0, 0⟩, ⟨[97], 1⟩) ∧ ¬((0 : Nat) < 0) :=
  ⟨rfl, by omega⟩

/-- C4 (amended): whenever the name rule succeeds its span satisfies
`start ≤ end`, every byte strictly between start and end is alphanumeric,
and either end is the offset of the first non-alphanumeric byte after the
run (and then `start < end`), or the run reached end of input and
`end = length - 1`, in which case the span may be empty. -/
theorem c4_name_span_characterisation (p : Parser) (s : Span) (p' : Parser)
    (h : p.parse_name = .ok (s, p')) :
    s.start < p.source.length ∧ s.start ≤ s.stop ∧
      (∀ j, s.start < j → j < s.stop →
        isAsciiAlphanumeric (p.source.getD j 0) = true) ∧
      ((s.stop < p.source.length ∧
          isAsciiAlphanumeric (p.source.getD s.stop 0) = false ∧
          s.start < s.stop) ∨
        (s.stop = p.source.length - 1 ∧
          ∀ j, s.start < j → j < p.source.length →
            isAsciiAlphanumeric (p.source.getD j 0) = true)) := by
  obtain ⟨hlt, hal, heq⟩ := Parser.parse_name_ok h
  have hs : s = (Parser.name_loopF p.idx (p.source.length + 1)
      ⟨p.source, p.idx + 1⟩).1 := congrArg Prod.fst heq
  obtain ⟨h1, h2⟩ := Parser.name_loopF_span (p.source.length + 1) p.idx
    ⟨p.source, p.idx + 1⟩ (by dsimp only; omega)
  rw [← hs] at h1 h2
  dsimp only at h1 h2
  rcases h2 with ⟨ha, hb, hc', hd⟩ | ⟨ha, hb⟩
  · refine ⟨by omega, by omega, ?_, Or.inl ⟨ha, hc', by omega⟩⟩
    intro j hj1 hj2
    exact hd j (by omega) hj2
  · refine ⟨by omega, by omega, ?_, Or.inr ⟨ha, ?_⟩⟩
    · intro j hj1 hj2
      exact hb j (by omega) (by omega)
    · intro j hj1 hj2
      exact hb j (by omega) hj2

/-- C4 witness: the amended characterisation applied to the buffer holding
the bytes of the letters a, b and a space, where the name rule returns the
span 0..2. -/
theorem c4_witness :
    (0 : Nat) < ([97, 98, 32] : List Nat).length ∧ (0 : Nat) ≤ 2 ∧
      (∀ j, 0 < j → j < 2 →
        isAsciiAlphanumeric (([97, 98, 32] : List Nat).getD j 0) = true) ∧
      ((2 < ([97, 98, 32] : List Nat).length ∧
          isAsciiAlphanumeric (([97, 98, 32] : List Nat).getD 2 0) = false ∧
          (0 : Nat) < 2) ∨
        (2 = ([97, 98, 32] : List Nat).length - 1 ∧
          ∀ j, 0 < j → j < ([97, 98, 32] : List Nat).length →
            isAsciiAlphanumeric (([97, 98, 32] : List Nat).getD j 0) = true)) :=
  c4_name_span_characterisation ⟨[97, 98, 32], 0⟩ ⟨0, 2⟩ ⟨[97, 98, 32], 2⟩ rfl

/-- C5: whenever the document loop consumes a right bracket or right brace
at offset `idx` the whole parse fails with `UnmatchedRightBracket` at the
zero-length range `idx..idx`; a bare right bracket fails at 0..0; on the
input left-bracket bold right-bracket the inline rule first succeeds with
name span 1..5 and located range 0..5, and the trailing bracket then fails
the parse at 5..5. -/
theorem c5_unmatched_right_bracket :
    (∀ (fuel : Nat) (p : Parser) (exprs : List (Loc Expr)) (s idx c : Nat)
        (p' : Parser), p.bump = some ((idx, c), p') → c = 93 ∨ c = 125 →
        Parser.doc_loopF (fuel + 1) p exprs s =
          .err ⟨⟨idx, idx⟩, .UnmatchedRightBracket⟩) ∧
      (Parser.new [93]).parse_document = .err ⟨⟨0, 0⟩, .UnmatchedRightBracket⟩ ∧
      Parser.parse_inline ⟨boldBracketInput, 1⟩ 0 =
        .ok (⟨⟨0, 5⟩, .Inline ⟨1, 5⟩ [] []⟩, ⟨boldBracketInput, 5⟩) ∧
      (Parser.new boldBracketInput).parse_document =
        .err ⟨⟨5, 5⟩, .UnmatchedRightBracket⟩ := by
  refine ⟨?_, rfl, rfl, rfl⟩
  intro fuel p exprs s idx c p' hb hc
  simp only [Parser.doc_loopF]
  rw [hb]
  dsimp only
  rw [if_neg (by omega), if_neg (by omega), if_pos hc]

/-- C5 witness: the general clause applied to a parser holding the single
right-bracket byte, with fuel 1. -/
theorem c5_witness :
    Parser.doc_loopF 1 ⟨[93], 0⟩ [] 0 = .err ⟨⟨0, 0⟩, .UnmatchedRightBracket⟩ :=
  c5_unmatched_right_bracket.1 0 ⟨[93], 0⟩ [] 0 0 93 ⟨[93], 1⟩ rfl (Or.inl rfl)

/-- C6: the input left-brace box pipe parses successfully into the
zero-length text node 0..0 followed by a `Block` node whose name span is
exactly 1..4 (the bytes of box) and whose located range is 0..4, starting
at the opening brace and excluding the trailing pipe. -/
theorem c6_block_excludes_pipe :
    (Parser.new boxPipeInput).parse_document =
      .ok [⟨⟨0, 0⟩, .Text ⟨0, 0⟩⟩, ⟨⟨0, 4⟩, .Block ⟨1, 4⟩ [] []⟩] := rfl

/-- C7: every input containing none of the four structural bytes parses
successfully, and because the trailing text run is never flushed the
resulting node sequence is empty. -/
theorem c7_no_structural_bytes_empty_document (src : List Nat)
    (h : ∀ b ∈ src, b ≠ 91 ∧ b ≠ 123 ∧ b ≠ 93 ∧ b ≠ 125) :
    (Parser.new src).parse_document = .ok [] :=
  Parser.doc_loopF_clean _ _ [] 0 h

/-- C7 witness: the five bytes of the word hello parse to the empty node
sequence. -/
theorem c7_witness :
    (Parser.new [104, 101, 108, 108, 111]).parse_document = .ok [] :=
  c7_no_structural_bytes_empty_document [104, 101, 108, 108, 111] (by decide)

/-- C8: parsing is deterministic: two fresh parser instances built from the
same bytes parse identically, and more generally the result depends only on
the parser's two fields (the embedded state holds nothing else). -/
theorem c8_reparse_deterministic :
    (∀ (src : List Nat) (p q : Parser), p = Parser.new src → q = Parser.new src →
        p.parse_document = q.parse_document) ∧
      (∀ p q : Parser, p.source = q.source → p.idx = q.idx →
        p.parse_document = q.parse_document) := by
  constructor
  · intro src p q hp hq
    rw [hp, hq]
  · intro p q hs hi
    obtain ⟨ps, pi⟩ := p
    obtain ⟨qs, qi⟩ := q
    dsimp only at hs hi
    rw [hs, hi]

/-- C8 witness: two fresh parses of the same two-byte buffer agree. -/
theorem c8_witness :
    (Parser.new [104, 105]).parse_document = (Parser.new [104, 105]).parse_document :=
  c8_reparse_deterministic.1 [104, 105] (Parser.new [104, 105])
    (Parser.new [104, 105]) rfl rfl

/-- C9: in every successful document parse each directive node sits at a
positive index with a text node immediately before it (the loop pushes a
text node unconditionally, even when its run is empty), and when the input
begins with a directive opener the first node is the zero-length text node
0..0. -/
theorem c9_text_precedes_every_directive (src : List Nat) (l : List (Loc Expr))
    (h : (Parser.new src).parse_document = .ok l) :
    (∀ i, i < l.length → isDirectiveNode (l.getD i locDefault) = true →
        0 < i ∧ isTextNode (l.getD (i - 1) locDefault) = true) ∧
      (0 < src.length → src.getD 0 0 = 91 ∨ src.getD 0 0 = 123 →
        ∃ t, l = (⟨⟨0, 0⟩, .Text ⟨0, 0⟩⟩ : Loc Expr) :: t) := by
  constructor
  · have h' : Parser.doc_loopF (src.length + 1) (Parser.new src) [] 0 = .ok l := h
    obtain ⟨t, ht, hsh⟩ := Parser.doc_loopF_shape _ _ _ _ _ h'
    rw [List.nil_append] at ht
    rw [ht]
    exact PairShape.directive_preceded hsh
  · intro hlen hc
    exact Parser.parse_document_leading_text hlen hc h

/-- C9 witness: on the two-byte input left-bracket a, the directive node at
index 1 of the parse result is preceded by a text node at index 0. -/
theorem c9_witness :
    0 < 1 ∧ isTextNode
        (([⟨⟨0, 0⟩, .Text ⟨0, 0⟩⟩, ⟨⟨0, 1⟩, .Inline ⟨1, 1⟩ [] []⟩] :
          List (Loc Expr)).getD (1 - 1) locDefault) = true :=
  (c9_text_precedes_every_directive [91, 97]
      [⟨⟨0, 0⟩, .Text ⟨0, 0⟩⟩, ⟨⟨0, 1⟩, .Inline ⟨1, 1⟩ [] []⟩] rfl).1 1
    (by decide) rfl

/-- C10: `bump` returns the byte at the cursor and advances the position by
exactly one, never past the buffer; the whitespace loop keeps the cursor in
bounds; and each of the three loops gives the same result under any fuel of
at least the remaining byte count, so each runs at most `length` iterations
on any finite input. -/
theorem c10_loops_terminate :
    (∀ (p : Parser) (i c : Nat) (p' : Parser), p.bump = some ((i, c), p') →
        i = p.idx ∧ p'.idx = p.idx + 1 ∧ p.idx < p.source.length ∧
        p'.idx ≤ p.source.length ∧ p'.source = p.source) ∧
      (∀ (f : Nat) (p : Parser), p.idx ≤ p.source.length →
        (Parser.take_whitespaceF f p).idx ≤ p.source.length) ∧
      (∀ (f g : Nat) (p : Parser), p.source.length - p.idx ≤ f →
        p.source.length - p.idx ≤ g →
        Parser.take_whitespaceF f p = Parser.take_whitespaceF g p) ∧
      (∀ (start f g : Nat) (p : Parser), p.source.length - p.idx ≤ f →
        p.source.length - p.idx ≤ g →
        Parser.name_loopF start f p = Parser.name_loopF start g p) ∧
      (∀ (f g : Nat) (p : Parser) (exprs : List (Loc Expr)) (s : Nat),
        p.source.length - p.idx ≤ f → p.source.length - p.idx ≤ g →
        Parser.doc_loopF f p exprs s = Parser.doc_loopF g p exprs s) := by
  refine ⟨?_, ?_, ?_, ?_, ?_⟩
  · intro p i c p' h
    obtain ⟨hi, hlt, hp', _⟩ := Parser.bump_inv h
    refine ⟨hi, by rw [hp'], hlt, by rw [hp']; exact hlt, by rw [hp']⟩
  · exact fun f p h => Parser.take_whitespaceF_idx_bound f p h
  · exact fun f g p hf hg =>
      Parser.take_whitespaceF_congr_aux (p.source.length - p.idx) f g p le_rfl hf hg
  · exact fun start f g p hf hg =>
      Parser.name_loopF_congr_aux (p.source.length - p.idx) start f g p le_rfl hf hg
  · exact fun f g p exprs s hf hg =>
      Parser.doc_loopF_congr_aux (p.source.length - p.idx) f g p exprs s le_rfl hf hg

/-- C10 witness: the document loop on the one-byte buffer holding the
letter a returns the same result with fuel 3 and fuel 5. -/
theorem c10_witness :
    Parser.doc_loopF 3 ⟨[97], 0⟩ [] 0 = Parser.doc_loopF 5 ⟨[97], 0⟩ [] 0 :=
  c10_loops_terminate.2.2.2.2 3 5 ⟨[97], 0⟩ [] 0 (by decide) (by decide)

end Cayatex
